import Mathlib

/-!
Verification of the CHost core: hosts-file reconciliation (`HostsManager` in
the repository), the reverse-proxy dispatcher start-up and listener error
handling (`ProxyServer`), and self-signed certificate generation
(`SSLManager`).  The JavaScript source is embedded shallowly: strings are
Lean `String`s, JS `content.split('\n')` is `splitLines`, JS
`line.includes(m)` is `strContains`, JS `Array.findIndex` is `findIndex`
returning `Option Nat`, JS `line.split(/\s+/)` is `splitWS`, and JS
`Array.sort()` on strings is `sortStr` (the unique sorted permutation under
the lexicographic order, which is what the JS default comparator computes on
the ASCII hostnames in play).  File-writing operations are modelled as pure
functions from the hosts-file content to an `Except`: an `.error` models a
thrown exception (no write happened), `.ok (c, w)` models normal completion
with resulting file content `c` and `w = true` exactly when the code called
`writeHosts`.
-/

namespace CHost

/-- JS `s.includes(pat)`: `pat` occurs in `s` as a contiguous substring.
Implemented as: some tail of `s` has `pat` as a prefix. -/
def strContains (s pat : String) : Bool :=
  s.toList.tails.any (fun t => pat.toList.isPrefixOf t)

/-- JS `content.split('\n')` on the underlying character list:
`splitNl "".toList = [[]]`, and every `'\n'` separates two (possibly empty)
parts. -/
def splitNl : List Char → List (List Char)
  | [] => [[]]
  | c :: rest =>
    if c = '\n' then [] :: splitNl rest
    else
      match splitNl rest with
      | [] => [[c]]
      | t :: ts => (c :: t) :: ts

/-- JS `lines.join('\n')` on character lists. -/
def joinNl : List (List Char) → List Char
  | [] => []
  | [l] => l
  | l :: ls => l ++ '\n' :: joinNl ls

/-- JS `content.split('\n')` producing the list of lines. -/
def splitLines (s : String) : List String :=
  (splitNl s.toList).map (fun l => String.mk l)

/-- JS `lines.join('\n')`. -/
def joinLines (ls : List String) : String :=
  String.mk (joinNl (ls.map String.toList))

/-- Auxiliary worker for `splitWS`: `acc` holds the reversed characters of
the token currently being read. -/
def splitWSAux : List Char → List Char → List String
  | [], acc => [String.mk acc.reverse]
  | c :: rest, acc =>
    if c.isWhitespace then
      String.mk acc.reverse :: splitWSAux (rest.dropWhile Char.isWhitespace) []
    else
      splitWSAux rest (c :: acc)
termination_by l _ => l.length
decreasing_by
  · exact Nat.lt_succ_of_le (List.dropWhile_sublist _).length_le
  · exact Nat.lt_succ_self _

/-- JS `line.split(/\s+/)`: split on maximal whitespace runs; a leading or
trailing whitespace run contributes an empty token, as in JS. -/
def splitWS (s : String) : List String :=
  splitWSAux s.toList []

/-- JS `String.prototype.trim` on a character list. -/
def trimChars (l : List Char) : List Char :=
  ((l.dropWhile Char.isWhitespace).reverse.dropWhile Char.isWhitespace).reverse

/-- The filter applied to the lines between the markers in
`HostsManager.parseHosts`: JS `line.trim() && !line.trim().startsWith('#')`. -/
def isEntryLine (l : String) : Bool :=
  (!(trimChars l.toList).isEmpty) && ((trimChars l.toList).head? != some '#')

/-- JS `Array.prototype.findIndex`, with `none` for `-1`. -/
def findIndex (p : String → Bool) : List String → Option Nat
  | [] => none
  | l :: ls => if p l then some 0 else (findIndex p ls).map (fun n => n + 1)

/-- `this.marker` in the `HostsManager` constructor. -/
def marker : String := "# CHost managed domains"

/-- `this.endMarker` in the `HostsManager` constructor. -/
def endMarker : String := "# End CHost managed domains"

/-- Result of `HostsManager.parseHosts`. -/
structure ParsedHosts where
  beforeManaged : List String
  managedEntries : List String
  afterManaged : List String
deriving DecidableEq, Repr

/-- `HostsManager.parseHosts` (src/unnamed/part_000, lines 126-151):
find the first line containing the start marker and the first line
containing the end marker (JS `findIndex` + `includes`), then slice. -/
def parseHosts (content : String) : ParsedHosts :=
  match findIndex (fun l => strContains l marker) (splitLines content) with
  | none => ⟨splitLines content, [], []⟩
  | some s =>
    match findIndex (fun l => strContains l endMarker) (splitLines content) with
    | none => ⟨(splitLines content).take s, [], []⟩
    | some e =>
      ⟨(splitLines content).take s,
       ((((splitLines content).drop (s + 1)).take (e - (s + 1))).filter
         isEntryLine),
       (splitLines content).drop (e + 1)⟩

/-- `HostsManager.buildHostsContent` (src/unnamed/part_000, lines 156-171):
emit the preserved lines, the marker block (only when `domains` is
nonempty, one `127.0.0.1\t<domain>` line each), and join with `'\n'`. -/
def buildHostsContent (beforeManaged domains afterManaged : List String) : String :=
  joinLines (beforeManaged ++
    (if 0 < domains.length then
      marker :: (domains.map (fun d => "127.0.0.1\t" ++ d) ++ [endMarker])
    else []) ++ afterManaged)

/-- The domain extraction shared by `getManagedDomains`, `addDomain` and
`removeDomain`: JS
`entries.map(l => { const parts = l.split(/\s+/); return parts.length >= 2 ? parts[1] : null; }).filter(Boolean)`.
`filter(Boolean)` drops both `null` and the empty string. -/
def extractDomains (entries : List String) : List String :=
  entries.filterMap (fun l =>
    match splitWS l with
    | _ :: p1 :: _ => if p1 = "" then none else some p1
    | _ => none)

/-- JS `Array.prototype.sort()` on strings: the sorted permutation under the
lexicographic string order. -/
def sortStr (l : List String) : List String :=
  List.insertionSort (fun a b : String => a ≤ b) l

/-- The message thrown by every write operation when `checkPermissions`
fails. -/
def permissionErrorMsg : String :=
  "Insufficient permissions to modify hosts file. Run as administrator/sudo."

/-- `HostsManager.addDomain` (src/unnamed/part_000, lines 196-229).
`perm` is the result of `checkPermissions`, checked before anything else. -/
def addDomain (perm : Bool) (content : String) (domain : String) :
    Except String (String × Bool) :=
  if !perm then .error permissionErrorMsg
  else if (extractDomains (parseHosts content).managedEntries).contains domain
    then .ok (content, false)
  else
    .ok (buildHostsContent (parseHosts content).beforeManaged
      (sortStr (extractDomains (parseHosts content).managedEntries ++
        [domain]))
      (parseHosts content).afterManaged, true)

/-- `HostsManager.removeDomain` (src/unnamed/part_000, lines 234-266). -/
def removeDomain (perm : Bool) (content : String) (domain : String) :
    Except String (String × Bool) :=
  if !perm then .error permissionErrorMsg
  else if ((extractDomains (parseHosts content).managedEntries).filter
      (fun d => !(d == domain))).length ≠
      (extractDomains (parseHosts content).managedEntries).length then
    .ok (buildHostsContent (parseHosts content).beforeManaged
      ((extractDomains (parseHosts content).managedEntries).filter
        (fun d => !(d == domain)))
      (parseHosts content).afterManaged, true)
  else .ok (content, false)

/-- `HostsManager.syncDomains` (src/unnamed/part_000, lines 271-290). -/
def syncDomains (perm : Bool) (content : String) (domains : List String) :
    Except String (String × Bool) :=
  if !perm then .error permissionErrorMsg
  else
    .ok (buildHostsContent (parseHosts content).beforeManaged
      (sortStr domains) (parseHosts content).afterManaged, true)

/-- `HostsManager.removeAllDomains` (src/unnamed/part_000, lines 295-312). -/
def removeAllDomains (perm : Bool) (content : String) :
    Except String (String × Bool) :=
  if !perm then .error permissionErrorMsg
  else
    .ok (buildHostsContent (parseHosts content).beforeManaged []
      (parseHosts content).afterManaged, true)

/-- A syntactically reasonable hostname character: alphanumeric, dot or
hyphen (matches the repository's validator character class). -/
def validHostnameChar (c : Char) : Bool :=
  c.isAlphanum || c = '.' || c = '-'

/-- A valid hostname: nonempty, made of hostname characters. -/
def validHostname (h : String) : Bool :=
  (!h.toList.isEmpty) && h.toList.all validHostnameChar

/-- A well-behaved foreign line: no embedded newline (it is a single line)
and no occurrence of either marker string. -/
def cleanLine (l : String) : Bool :=
  (decide ('\n' ∉ l.toList)) && (!(strContains l marker)) &&
    (!(strContains l endMarker))

/-- The spec's `rebuild(before, S, after)`: exactly the write path of
`syncDomains` — sort the target set and call `buildHostsContent`. -/
def rebuild (beforeLines : List String) (s : List String)
    (afterLines : List String) : String :=
  buildHostsContent beforeLines (sortStr s) afterLines

/-- Layout condition on a hosts file: the first line containing the end
marker, if any, is strictly preceded by a line containing the start
marker. -/
def goodLayout (content : String) : Bool :=
  match findIndex (fun l => strContains l endMarker) (splitLines content) with
  | none => true
  | some e =>
    match findIndex (fun l => strContains l marker) (splitLines content) with
    | none => false
    | some s => decide (s < e)

/-- One domain entry of the config: `{port, ssl, proxy}`
(src/src/core/config-manager.js, `addDomain`). -/
structure DomainConfig where
  port : Nat
  ssl : Bool
  prx : Bool
deriving DecidableEq

/-- The `settings` object consumed by `ProxyServer.start`; the source reads
`settings.proxyPort || 80` and `settings.sslPort || 443`, so a falsy (zero)
port falls back to the default. -/
structure Settings where
  proxyPort : Nat
  sslPort : Nat
deriving DecidableEq

/-- Listener state of the `ProxyServer` singleton: whether `this.httpServer`
and `this.httpsServer` are non-null. -/
structure ProxyState where
  httpServer : Bool
  httpsServer : Bool
deriving DecidableEq

/-- Outcome of `ProxyServer.start` (src/src/core/proxy-server.js,
lines 16-27): an early return while already running, an early return when no
domains are configured, or binding both listeners on the resolved ports. -/
inductive StartResult where
  | alreadyRunning
  | noDomains
  | started (httpPort httpsPort : Nat)
deriving DecidableEq

/-- `ProxyServer.start`: the guard structure of src/src/core/proxy-server.js
lines 16-27 followed by the listener creation of lines 75-139.  The domain
registry is the config's `domains` object, given as an association list. -/
def ProxyServer.start (st : ProxyState) (domains : List (String × DomainConfig))
    (settings : Settings) : ProxyState × StartResult :=
  if st.httpServer || st.httpsServer then (st, .alreadyRunning)
  else if domains.length = 0 then (st, .noDomains)
  else
    let httpPort := if settings.proxyPort = 0 then 80 else settings.proxyPort
    let httpsPort := if settings.sslPort = 0 then 443 else settings.sslPort
    (⟨true, true⟩, .started httpPort httpsPort)

/-- What a listener `error` event handler does: terminate the process after
a specific log line, or log and keep the server running.  The handlers in
the source have no other behaviour (in particular no rebinding). -/
inductive ListenerAction where
  | exitFatal (msg : String)
  | logOnly (msg : String)
deriving DecidableEq

/-- The HTTP listener `on('error')` handler (src/src/core/proxy-server.js,
lines 84-91): `EACCES` logs a sudo hint and calls `process.exit(1)`; every
other error code is logged generically and is not fatal. -/
def httpListenerOnError (code : String) : ListenerAction :=
  if code = "EACCES" then
    .exitFatal "Permission denied to bind to port 80. Please run with sudo."
  else .logOnly "HTTP server error:"

/-- The HTTPS listener `on('error')` handler (src/src/core/proxy-server.js,
lines 132-139). -/
def httpsListenerOnError (code : String) : ListenerAction :=
  if code = "EACCES" then
    .exitFatal "Permission denied to bind to port 443. Please run with sudo."
  else .logOnly "HTTPS server error:"

/-- A calendar instant, abstracted as the year plus the remaining
(month/day/time) component, which JS `setFullYear` leaves untouched. -/
structure SimpleDate where
  year : Int
  sub : Nat
deriving DecidableEq

/-- JS `date.setFullYear(y)` (functionally). -/
def setFullYear (d : SimpleDate) (y : Int) : SimpleDate :=
  ⟨y, d.sub⟩

/-- An RSA key pair, abstracted by its modulus size. -/
structure RsaKeyPair where
  modulusBits : Nat
deriving DecidableEq

/-- `forge.pki.rsa.generateKeyPair(bits)`: a fresh key pair with the
requested modulus size. -/
def rsaGenerateKeyPair (bits : Nat) : RsaKeyPair :=
  ⟨bits⟩

/-- The subject/issuer attribute list built in
`SSLManager.generateCertificate` (src/src/core/ssl-manager.js,
lines 27-34). -/
structure CertAttrs where
  commonName : String
  countryName : String
  stateName : String
  localityName : String
  organizationName : String
  organizationalUnit : String
deriving DecidableEq

/-- The concrete `attrs` array of `generateCertificate`. -/
def chostAttrs (domain : String) : CertAttrs :=
  ⟨domain, "US", "California", "San Francisco", "CHost Self-Signed", "CHost"⟩

/-- The `keyUsage` extension flags set in `generateCertificate`. -/
structure KeyUsageExt where
  keyCertSign : Bool
  digitalSignature : Bool
  nonRepudiation : Bool
  keyEncipherment : Bool
  dataEncipherment : Bool
deriving DecidableEq

/-- The `extKeyUsage` extension flags set in `generateCertificate`. -/
structure ExtKeyUsageExt where
  serverAuth : Bool
  clientAuth : Bool
  codeSigning : Bool
  emailProtection : Bool
  timeStamping : Bool
deriving DecidableEq

/-- One `subjectAltName` entry; `typ = 2` is a DNS name. -/
structure AltName where
  typ : Nat
  value : String
deriving DecidableEq

/-- The certificate object assembled by `SSLManager.generateCertificate`,
abstracted over the cryptographic byte strings. `signingKey` records which
private key signed the certificate (`cert.sign(keys.privateKey, ...)`). -/
structure Certificate where
  keyPair : RsaKeyPair
  signingKey : RsaKeyPair
  subject : CertAttrs
  issuer : CertAttrs
  notBefore : SimpleDate
  notAfter : SimpleDate
  keyUsage : KeyUsageExt
  extKeyUsage : ExtKeyUsageExt
  subjectAltNames : List AltName
  basicConstraintsCA : Bool
deriving DecidableEq

/-- `SSLManager.generateCertificate` (src/src/core/ssl-manager.js,
lines 14-95).  The two `new Date()` calls are modelled as the same instant
`now`; `notAfter` then gets `setFullYear(notBefore.getFullYear() + 1)`. -/
def generateCertificate (domain : String) (now : SimpleDate) : Certificate :=
  let keys := rsaGenerateKeyPair 2048
  let attrs := chostAttrs domain
  ⟨keys, keys, attrs, attrs, now, setFullYear now (now.year + 1),
   ⟨true, true, true, true, true⟩, ⟨true, true, true, true, true⟩,
   [⟨2, domain⟩, ⟨2, "localhost"⟩], true⟩

/-- `SSLManager.getCertificate` (src/src/core/ssl-manager.js,
lines 103-106): always generates afresh. -/
def getCertificate (domain : String) (now : SimpleDate) : Certificate :=
  generateCertificate domain now

/-! ### Lemmas about `findIndex` -/

theorem findIndex_eq_none_iff {p : String → Bool} {ls : List String} :
    findIndex p ls = none ↔ ∀ l ∈ ls, p l = false := by
  induction ls with
  | nil => simp [findIndex]
  | cons a ls ih =>
    by_cases hp : p a = true
    · simp [findIndex, hp]
    · simp only [Bool.not_eq_true] at hp
      simp [findIndex, hp, ih]

theorem findIndex_append_of_forall {p : String → Bool} {ls₁ : List String}
    (h : ∀ l ∈ ls₁, p l = false) (a : String) (ls₂ : List String)
    (ha : p a = true) :
    findIndex p (ls₁ ++ a :: ls₂) = some ls₁.length := by
  induction ls₁ with
  | nil => simp [findIndex, ha]
  | cons b ls₁ ih =>
    have hb : p b = false := h b (List.mem_cons_self b ls₁)
    have ih' := ih (fun l hl => h l (List.mem_cons_of_mem b hl))
    simp [findIndex, hb, ih']

theorem findIndex_cons (p : String → Bool) (a : String) (ls : List String) :
    findIndex p (a :: ls) =
      if p a then some 0 else (findIndex p ls).map (fun n => n + 1) := rfl

theorem findIndex_cons_some {p : String → Bool} {a : String} {ls : List String}
    {n : Nat} (h : findIndex p (a :: ls) = some n) :
    (p a = true ∧ n = 0) ∨
      (p a = false ∧ ∃ m, findIndex p ls = some m ∧ n = m + 1) := by
  rw [findIndex_cons] at h
  by_cases hp : p a = true
  · rw [if_pos hp] at h
    injection h with h
    exact Or.inl ⟨hp, h.symm⟩
  · rw [if_neg hp] at h
    cases hfi : findIndex p ls with
    | none => rw [hfi] at h; exact absurd h (by simp)
    | some m =>
      rw [hfi] at h
      simp only [Option.map_some'] at h
      injection h with h
      exact Or.inr ⟨Bool.not_eq_true _ ▸ hp, m, rfl, h.symm⟩

theorem findIndex_take_false {p : String → Bool} {ls : List String} {n : Nat}
    (h : findIndex p ls = some n) : ∀ l ∈ ls.take n, p l = false := by
  induction ls generalizing n with
  | nil => simp
  | cons a ls ih =>
    rcases findIndex_cons_some h with ⟨hp, rfl⟩ | ⟨hp, m, hm, rfl⟩
    · simp
    · intro l hl
      rw [List.take_succ_cons] at hl
      rcases List.mem_cons.mp hl with rfl | hl
      · exact hp
      · exact ih hm l hl

theorem findIndex_take_eq_takeWhile {p : String → Bool} {ls : List String} {n : Nat}
    (h : findIndex p ls = some n) :
    ls.take n = ls.takeWhile (fun l => !p l) := by
  induction ls generalizing n with
  | nil => simp
  | cons a ls ih =>
    rcases findIndex_cons_some h with ⟨hp, rfl⟩ | ⟨hp, m, hm, rfl⟩
    · simp [List.takeWhile_cons, hp]
    · simp [List.takeWhile_cons, hp, ih hm]

theorem takeWhile_eq_self_of_findIndex_none {p : String → Bool} {ls : List String}
    (h : findIndex p ls = none) :
    ls.takeWhile (fun l => !p l) = ls := by
  rw [List.takeWhile_eq_self_iff]
  intro l hl
  simp [findIndex_eq_none_iff.mp h l hl]

/-! ### Lemmas about `splitNl` and `joinNl` -/

theorem splitNl_ne_nil (l : List Char) : splitNl l ≠ [] := by
  cases l with
  | nil => simp [splitNl]
  | cons c rest =>
    by_cases hc : c = '\n'
    · simp [splitNl, hc]
    · simp only [splitNl, if_neg hc]
      cases splitNl rest <;> simp

theorem splitNl_cons_of_eq {c : Char} (hc : ¬c = '\n') {rest t : List Char}
    {ts : List (List Char)} (h : splitNl rest = t :: ts) :
    splitNl (c :: rest) = (c :: t) :: ts := by
  simp only [splitNl, if_neg hc, h]

theorem mem_splitNl_no_newline (l : List Char) :
    ∀ q ∈ splitNl l, '\n' ∉ q := by
  induction l with
  | nil =>
    intro q hq
    simp [splitNl] at hq
    simp [hq]
  | cons c rest ih =>
    intro q hq
    by_cases hc : c = '\n'
    · subst hc
      have hsp : splitNl ('\n' :: rest) = [] :: splitNl rest := by
        simp [splitNl]
      rw [hsp] at hq
      rcases List.mem_cons.mp hq with rfl | hq
      · simp
      · exact ih q hq
    · cases hrest : splitNl rest with
      | nil => exact absurd hrest (splitNl_ne_nil rest)
      | cons t ts =>
        rw [splitNl_cons_of_eq hc hrest] at hq
        rcases List.mem_cons.mp hq with rfl | hq
        · intro hmem
          rcases List.mem_cons.mp hmem with rfl | hmem
          · exact hc rfl
          · exact ih t (hrest ▸ List.mem_cons_self t ts) hmem
        · exact ih q (hrest ▸ List.mem_cons_of_mem t hq)

theorem splitNl_eq_singleton {l : List Char} (h : '\n' ∉ l) :
    splitNl l = [l] := by
  induction l with
  | nil => rfl
  | cons c rest ih =>
    have hc : ¬c = '\n' := fun hc => h (hc ▸ List.mem_cons_self c rest)
    exact splitNl_cons_of_eq hc (ih (fun hm => h (List.mem_cons_of_mem c hm)))

theorem splitNl_append_newline {l : List Char} (h : '\n' ∉ l)
    (rest : List Char) :
    splitNl (l ++ '\n' :: rest) = l :: splitNl rest := by
  induction l with
  | nil => simp [splitNl]
  | cons c l' ih =>
    have hc : ¬c = '\n' := fun hc => h (hc ▸ List.mem_cons_self c l')
    have ih' := ih (fun hm => h (List.mem_cons_of_mem c hm))
    rw [List.cons_append, splitNl_cons_of_eq hc ih']

theorem splitNl_snoc_newline {l : List Char} (h : '\n' ∉ l) :
    ∀ rest : List Char, splitNl (rest ++ '\n' :: l) = splitNl rest ++ [l] := by
  intro rest
  induction rest with
  | nil => simp [splitNl, splitNl_eq_singleton h]
  | cons c r ih =>
    by_cases hc : c = '\n'
    · simp [splitNl, hc, ih]
    · cases hr : splitNl r with
      | nil => exact absurd hr (splitNl_ne_nil r)
      | cons t ts =>
        have h1 : splitNl (r ++ '\n' :: l) = t :: (ts ++ [l]) := by
          rw [ih, hr]; rfl
        rw [List.cons_append, splitNl_cons_of_eq hc h1,
          splitNl_cons_of_eq hc hr]
        rfl

theorem joinNl_cons {l : List Char} {ls : List (List Char)} (h : ls ≠ []) :
    joinNl (l :: ls) = l ++ '\n' :: joinNl ls := by
  cases ls with
  | nil => exact absurd rfl h
  | cons l' ls' => rfl

theorem joinNl_snoc {ls : List (List Char)} (h : ls ≠ []) (l : List Char) :
    joinNl (ls ++ [l]) = joinNl ls ++ '\n' :: l := by
  induction ls with
  | nil => exact absurd rfl h
  | cons c ls' ih =>
    cases ls' with
    | nil => simp [joinNl]
    | cons d ls'' =>
      have hne : d :: ls'' ≠ [] := by simp
      have hne' : (d :: ls'') ++ [l] ≠ [] := by simp
      rw [List.cons_append, joinNl_cons hne', ih hne, joinNl_cons hne]
      simp

theorem splitNl_joinNl {ps : List (List Char)} (h : ∀ q ∈ ps, '\n' ∉ q)
    (hne : ps ≠ []) : splitNl (joinNl ps) = ps := by
  induction ps with
  | nil => exact absurd rfl hne
  | cons q ps' ih =>
    cases ps' with
    | nil => simpa [joinNl] using splitNl_eq_singleton (h q (List.mem_cons_self q []))
    | cons r ps'' =>
      have hne' : r :: ps'' ≠ [] := by simp
      rw [joinNl_cons hne',
        splitNl_append_newline (h q (List.mem_cons_self q (r :: ps''))),
        ih (fun x hx => h x (List.mem_cons_of_mem q hx)) hne']

theorem splitNl_joinNl_right (b l2 : List (List Char))
    (h2 : ∀ q ∈ l2, '\n' ∉ q) :
    ∃ mid, splitNl (joinNl (b ++ l2)) = mid ++ l2 := by
  induction l2 using List.reverseRecOn with
  | nil => exact ⟨splitNl (joinNl b), by simp⟩
  | append_singleton l2' l ih =>
    have h2' : ∀ q ∈ l2', '\n' ∉ q :=
      fun q hq => h2 q (List.mem_append_left _ hq)
    have hl : '\n' ∉ l := h2 l (List.mem_append_right _ (List.mem_singleton_self l))
    obtain ⟨mid, hmid⟩ := ih h2'
    by_cases hbe : b ++ l2' = []
    · rcases List.append_eq_nil.mp hbe with ⟨rfl, rfl⟩
      exact ⟨[], by simp [joinNl, splitNl_eq_singleton hl]⟩
    · refine ⟨mid, ?_⟩
      rw [← List.append_assoc, joinNl_snoc hbe, splitNl_snoc_newline hl, hmid,
        List.append_assoc]

theorem splitNl_joinNl_mid (l1 b l2 : List (List Char))
    (h1 : ∀ q ∈ l1, '\n' ∉ q) (h2 : ∀ q ∈ l2, '\n' ∉ q) :
    ∃ mid, splitNl (joinNl (l1 ++ b ++ l2)) = l1 ++ mid ++ l2 := by
  induction l1 with
  | nil =>
    obtain ⟨mid, hmid⟩ := splitNl_joinNl_right b l2 h2
    exact ⟨mid, by simpa using hmid⟩
  | cons q l1' ih =>
    have hq : '\n' ∉ q := h1 q (List.mem_cons_self q l1')
    obtain ⟨mid, hmid⟩ := ih (fun x hx => h1 x (List.mem_cons_of_mem q hx))
    by_cases hre : l1' ++ b ++ l2 = []
    · rcases List.append_eq_nil.mp hre with ⟨hre1, hre2⟩
      rcases List.append_eq_nil.mp hre1 with ⟨hre3, hre4⟩
      refine ⟨[], ?_⟩
      simp only [hre2, hre3, hre4]
      simp [joinNl, splitNl_eq_singleton hq]
    · have : (q :: l1') ++ b ++ l2 = q :: (l1' ++ b ++ l2) := by simp
      rw [this, joinNl_cons hre, splitNl_append_newline hq, hmid]
      simp

/-! ### String-level wrappers -/

theorem mk_toList : ∀ s : String, String.mk s.toList = s
  | ⟨_⟩ => rfl

theorem toList_mk (l : List Char) : (String.mk l).toList = l := rfl

theorem mem_splitLines_no_newline (s : String) :
    ∀ l ∈ splitLines s, '\n' ∉ l.toList := by
  intro l hl
  simp only [splitLines, List.mem_map] at hl
  obtain ⟨q, hq, rfl⟩ := hl
  rw [toList_mk]
  exact mem_splitNl_no_newline _ q hq

theorem splitLines_joinLines {ls : List String}
    (h : ∀ l ∈ ls, '\n' ∉ l.toList) (hne : ls ≠ []) :
    splitLines (joinLines ls) = ls := by
  have h1 : ∀ q ∈ ls.map String.toList, '\n' ∉ q := by
    intro q hq
    rw [List.mem_map] at hq
    obtain ⟨l, hl, rfl⟩ := hq
    exact h l hl
  have h2 : ls.map String.toList ≠ [] := by
    simpa using hne
  have hcomp : ((fun l => String.mk l) ∘ String.toList) = id := funext mk_toList
  unfold splitLines joinLines
  rw [toList_mk, splitNl_joinNl h1 h2, List.map_map, hcomp, List.map_id]

theorem splitLines_joinLines_mid (l1 b l2 : List String)
    (h1 : ∀ l ∈ l1, '\n' ∉ l.toList) (h2 : ∀ l ∈ l2, '\n' ∉ l.toList) :
    ∃ mid, splitLines (joinLines (l1 ++ b ++ l2)) = l1 ++ mid ++ l2 := by
  have h1' : ∀ q ∈ l1.map String.toList, '\n' ∉ q := by
    intro q hq
    rw [List.mem_map] at hq
    obtain ⟨l, hl, rfl⟩ := hq
    exact h1 l hl
  have h2' : ∀ q ∈ l2.map String.toList, '\n' ∉ q := by
    intro q hq
    rw [List.mem_map] at hq
    obtain ⟨l, hl, rfl⟩ := hq
    exact h2 l hl
  obtain ⟨mid, hmid⟩ := splitNl_joinNl_mid (l1.map String.toList)
    (b.map String.toList) (l2.map String.toList) h1' h2'
  refine ⟨mid.map (fun q => String.mk q), ?_⟩
  have hcomp : ((fun q => String.mk q) ∘ String.toList) = id := funext mk_toList
  unfold splitLines joinLines
  rw [toList_mk, List.map_append, List.map_append, hmid, List.map_append,
    List.map_append, List.map_map, List.map_map, hcomp, List.map_id,
    List.map_id]

/-! ### Lemmas about `strContains` -/

theorem strContains_iff_substring {s pat : String} :
    strContains s pat = true ↔ pat.toList <:+: s.toList := by
  unfold strContains
  rw [List.any_eq_true]
  constructor
  · rintro ⟨t, ht, hpre⟩
    rw [ List.isPrefixOf_iff_prefix] at hpre
    obtain ⟨r, hr⟩ := hpre
    obtain ⟨u, hu⟩ := (List.mem_tails _ _).mp ht
    exact ⟨u, r, by rw [List.append_assoc, hr, hu]⟩
  · rintro ⟨u, v, huv⟩
    refine ⟨pat.toList ++ v, ?_, ?_⟩
    · exact (List.mem_tails _ _).mpr ⟨u, by rw [← huv, List.append_assoc]⟩
    · rw [ List.isPrefixOf_iff_prefix]
      exact ⟨v, rfl⟩

theorem strContains_false_of_not_mem {s pat : String} {c : Char}
    (hc : c ∈ pat.toList) (hs : c ∉ s.toList) : strContains s pat = false := by
  cases hb : strContains s pat
  · rfl
  · exact absurd ((strContains_iff_substring.mp hb).sublist.subset hc) hs

theorem marker_contains_self : strContains marker marker = true := by decide

theorem marker_not_contains_end : strContains marker endMarker = false := by
  decide

theorem endMarker_not_contains_marker :
    strContains endMarker marker = false := by decide

theorem endMarker_contains_self : strContains endMarker endMarker = true := by
  decide

theorem space_mem_marker : ' ' ∈ marker.toList := by decide

theorem space_mem_endMarker : ' ' ∈ endMarker.toList := by decide

theorem newline_not_mem_marker : '\n' ∉ marker.toList := by decide

theorem newline_not_mem_endMarker : '\n' ∉ endMarker.toList := by decide

/-! ### Lemmas about `splitWS`, `trimChars` and entry lines -/

theorem splitWSAux_chunk {l₁ : List Char}
    (h : ∀ c ∈ l₁, c.isWhitespace = false) :
    ∀ (l₂ acc : List Char),
      splitWSAux (l₁ ++ l₂) acc = splitWSAux l₂ (l₁.reverse ++ acc) := by
  induction l₁ with
  | nil => intro l₂ acc; simp
  | cons c l₁' ih =>
    intro l₂ acc
    have hc : c.isWhitespace = false := h c (List.mem_cons_self _ _)
    rw [List.cons_append, splitWSAux, if_neg (by simp [hc]),
      ih (fun x hx => h x (List.mem_cons_of_mem c hx)) l₂ (c :: acc)]
    simp

theorem splitWSAux_all_nonws {l : List Char}
    (hl : ∀ c ∈ l, c.isWhitespace = false) :
    ∀ acc, splitWSAux l acc = [String.mk (acc.reverse ++ l)] := by
  induction l with
  | nil => intro acc; simp [splitWSAux]
  | cons c l' ih =>
    intro acc
    have hc : c.isWhitespace = false := hl c (List.mem_cons_self _ _)
    rw [splitWSAux, if_neg (by simp [hc]),
      ih (fun x hx => hl x (List.mem_cons_of_mem c hx)) (c :: acc)]
    simp

theorem entry_toList (d : String) :
    ("127.0.0.1\t" ++ d).toList =
      ['1', '2', '7', '.', '0', '.', '0', '.', '1', '\t'] ++ d.toList := rfl

theorem splitWS_entry {d : String}
    (h : ∀ c ∈ d.toList, c.isWhitespace = false) :
    splitWS ("127.0.0.1\t" ++ d) = ["127.0.0.1", d] := by
  unfold splitWS
  rw [entry_toList]
  have hchunk : ∀ c ∈ ['1', '2', '7', '.', '0', '.', '0', '.', '1'],
      c.isWhitespace = false := by decide
  have hsplit : ['1', '2', '7', '.', '0', '.', '0', '.', '1', '\t'] ++ d.toList
      = ['1', '2', '7', '.', '0', '.', '0', '.', '1'] ++ ('\t' :: d.toList) := by
    simp
  rw [hsplit, splitWSAux_chunk hchunk ('\t' :: d.toList) [],
    splitWSAux, if_pos (by decide)]
  have hdrop : d.toList.dropWhile Char.isWhitespace = d.toList := by
    cases hd : d.toList with
    | nil => rfl
    | cons x xs =>
      rw [List.dropWhile_cons, if_neg]
      simp [h x (hd ▸ List.mem_cons_self x xs)]
  rw [hdrop, splitWSAux_all_nonws h []]
  simp [mk_toList]

theorem splitWSAux_mem_no_ws :
    ∀ (n : Nat) (l acc : List Char), l.length ≤ n →
      (∀ c ∈ acc, c.isWhitespace = false) →
      ∀ t ∈ splitWSAux l acc, ∀ c ∈ t.toList, c.isWhitespace = false := by
  intro n
  induction n with
  | zero =>
    intro l acc hlen hacc t ht c hc
    have hl : l = [] := List.eq_nil_of_length_eq_zero (Nat.le_zero.mp hlen)
    subst hl
    simp only [splitWSAux, List.mem_singleton] at ht
    subst ht
    rw [toList_mk] at hc
    exact hacc c (List.mem_reverse.mp hc)
  | succ n ih =>
    intro l acc hlen hacc t ht c hc
    cases l with
    | nil =>
      simp only [splitWSAux, List.mem_singleton] at ht
      subst ht
      rw [toList_mk] at hc
      exact hacc c (List.mem_reverse.mp hc)
    | cons a rest =>
      rw [List.length_cons, Nat.succ_le_succ_iff] at hlen
      cases ha : a.isWhitespace
      · rw [splitWSAux, if_neg (by simp [ha])] at ht
        exact ih rest (a :: acc) hlen
          (fun x hx => by
            rcases List.mem_cons.mp hx with rfl | hx
            · exact ha
            · exact hacc x hx) t ht c hc
      · rw [splitWSAux, if_pos (by simp [ha])] at ht
        rcases List.mem_cons.mp ht with rfl | ht
        · rw [toList_mk] at hc
          exact hacc c (List.mem_reverse.mp hc)
        · exact ih (rest.dropWhile Char.isWhitespace) []
            (Nat.le_trans (List.dropWhile_sublist _).length_le hlen)
            (by simp) t ht c hc

theorem extractDomains_token_props {es : List String} :
    ∀ d ∈ extractDomains es,
      d.toList ≠ [] ∧ ∀ c ∈ d.toList, c.isWhitespace = false := by
  intro d hd
  unfold extractDomains at hd
  rw [List.mem_filterMap] at hd
  obtain ⟨l, _, hfl⟩ := hd
  cases hsp : splitWS l with
  | nil => rw [hsp] at hfl; simp at hfl
  | cons p0 ps =>
    cases ps with
    | nil => rw [hsp] at hfl; simp at hfl
    | cons p1 ps' =>
      rw [hsp] at hfl
      dsimp only at hfl
      by_cases hp1 : p1 = ""
      · rw [if_pos hp1] at hfl
        exact absurd hfl (by simp)
      · rw [if_neg hp1] at hfl
        have hd1 : p1 = d := by
          have := hfl
          injection this
        subst hd1
        refine ⟨?_, ?_⟩
        · intro hnil
          exact hp1 (String.ext (hnil.trans rfl))
        · have hp1mem : p1 ∈ splitWS l := by
            rw [hsp]
            exact List.mem_cons_of_mem _ (List.mem_cons_self _ _)
          exact splitWSAux_mem_no_ws l.toList.length l.toList []
            (Nat.le_refl _) (by simp) p1 hp1mem

theorem ws_char_cases {c : Char} (h : c.isWhitespace = true) :
    c = ' ' ∨ c = '\t' ∨ c = '\r' ∨ c = '\n' := by
  have h' := h
  simp only [Char.isWhitespace, Bool.or_eq_true, decide_eq_true_eq] at h'
  tauto

theorem entry_char_free {d : String}
    (h : ∀ c ∈ d.toList, c.isWhitespace = false) :
    ' ' ∉ ("127.0.0.1\t" ++ d).toList ∧
      '\n' ∉ ("127.0.0.1\t" ++ d).toList := by
  rw [entry_toList]
  refine ⟨fun hmem => ?_, fun hmem => ?_⟩
  · rcases List.mem_append.mp hmem with h1 | h1
    · exact absurd h1 (by decide)
    · exact absurd (h ' ' h1) (by decide)
  · rcases List.mem_append.mp hmem with h1 | h1
    · exact absurd h1 (by decide)
    · exact absurd (h '\n' h1) (by decide)

theorem entry_marker_free {d : String}
    (h : ∀ c ∈ d.toList, c.isWhitespace = false) :
    strContains ("127.0.0.1\t" ++ d) marker = false ∧
      strContains ("127.0.0.1\t" ++ d) endMarker = false :=
  ⟨strContains_false_of_not_mem space_mem_marker (entry_char_free h).1,
   strContains_false_of_not_mem space_mem_endMarker (entry_char_free h).1⟩

theorem isEntryLine_entry {d : String} (hne : d.toList ≠ [])
    (h : ∀ c ∈ d.toList, c.isWhitespace = false) :
    isEntryLine ("127.0.0.1\t" ++ d) = true := by
  unfold isEntryLine trimChars
  rw [entry_toList]
  have hstep : (['1', '2', '7', '.', '0', '.', '0', '.', '1', '\t'] ++
      d.toList).dropWhile Char.isWhitespace =
      ['1', '2', '7', '.', '0', '.', '0', '.', '1', '\t'] ++ d.toList := by
    rw [show ['1', '2', '7', '.', '0', '.', '0', '.', '1', '\t'] ++ d.toList =
      '1' :: (['2', '7', '.', '0', '.', '0', '.', '1', '\t'] ++ d.toList)
      from rfl]
    rw [List.dropWhile_cons, if_neg (by decide)]
  rw [hstep]
  cases hrev : d.toList.reverse with
  | nil => exact absurd (List.reverse_eq_nil_iff.mp hrev) hne
  | cons y ys =>
    have hy : y ∈ d.toList := by
      rw [← List.mem_reverse, hrev]
      exact List.mem_cons_self _ _
    have hrev2 : (['1', '2', '7', '.', '0', '.', '0', '.', '1', '\t'] ++
        d.toList).reverse =
        y :: (ys ++ ['\t', '1', '.', '0', '.', '0', '.', '7', '2', '1']) := by
      rw [List.reverse_append, hrev]
      simp
    rw [hrev2, List.dropWhile_cons, if_neg (by simp [h y hy]), ← hrev2,
      List.reverse_reverse]
    rw [show ['1', '2', '7', '.', '0', '.', '0', '.', '1', '\t'] ++ d.toList =
      '1' :: (['2', '7', '.', '0', '.', '0', '.', '1', '\t'] ++ d.toList)
      from rfl]
    simp

theorem validHostname_props {h : String} (hv : validHostname h = true) :
    h.toList ≠ [] ∧ ∀ c ∈ h.toList, c.isWhitespace = false := by
  unfold validHostname at hv
  rw [Bool.and_eq_true] at hv
  obtain ⟨h1, h2⟩ := hv
  refine ⟨fun hnil => ?_, fun c hc => ?_⟩
  · rw [hnil] at h1
    simp at h1
  · have hvc : validHostnameChar c = true := List.all_eq_true.mp h2 c hc
    cases hws : c.isWhitespace
    · rfl
    · exfalso
      rcases ws_char_cases hws with rfl | rfl | rfl | rfl <;>
        exact absurd hvc (by decide)

/-! ### Characterizing `parseHosts` and `buildHostsContent` -/

theorem parseHosts_of_marker_none {content : String}
    (hs : findIndex (fun l => strContains l marker) (splitLines content) = none) :
    parseHosts content = ⟨splitLines content, [], []⟩ := by
  simp only [parseHosts, hs]

theorem parseHosts_of_end_none {content : String} {s : Nat}
    (hs : findIndex (fun l => strContains l marker) (splitLines content) = some s)
    (he : findIndex (fun l => strContains l endMarker) (splitLines content) = none) :
    parseHosts content = ⟨(splitLines content).take s, [], []⟩ := by
  simp only [parseHosts, hs, he]

theorem parseHosts_of_found {content : String} {s e : Nat}
    (hs : findIndex (fun l => strContains l marker) (splitLines content) = some s)
    (he : findIndex (fun l => strContains l endMarker) (splitLines content) = some e) :
    parseHosts content =
      ⟨(splitLines content).take s,
       ((((splitLines content).drop (s + 1)).take (e - (s + 1))).filter
         isEntryLine),
       (splitLines content).drop (e + 1)⟩ := by
  simp only [parseHosts, hs, he]

theorem buildHostsContent_ne_nil {ds : List String} (h : ds ≠ [])
    (bf af : List String) :
    buildHostsContent bf ds af =
      joinLines (bf ++
        (marker :: (ds.map (fun d => "127.0.0.1\t" ++ d) ++ [endMarker])) ++
        af) := by
  unfold buildHostsContent
  rw [if_pos (List.length_pos.mpr h)]

theorem buildHostsContent_nil (bf af : List String) :
    buildHostsContent bf [] af = joinLines (bf ++ af) := by
  unfold buildHostsContent
  simp

/-- The central round-trip fact: parsing a file built from marker-free,
newline-free "before" lines, a nonempty list of whitespace-free nonempty
domain tokens, and newline-free "after" lines recovers the three parts
exactly. -/
theorem parseHosts_build {bf af ds : List String}
    (hbm : ∀ l ∈ bf, strContains l marker = false)
    (hbe : ∀ l ∈ bf, strContains l endMarker = false)
    (hbn : ∀ l ∈ bf, '\n' ∉ l.toList)
    (han : ∀ l ∈ af, '\n' ∉ l.toList)
    (hds : ds ≠ [])
    (hgt : ∀ d ∈ ds, d.toList ≠ [] ∧ ∀ c ∈ d.toList, c.isWhitespace = false) :
    parseHosts (buildHostsContent bf ds af) =
      ⟨bf, ds.map (fun d => "127.0.0.1\t" ++ d), af⟩ := by
  have hmem_es : ∀ l ∈ ds.map (fun d => "127.0.0.1\t" ++ d),
      ∃ d ∈ ds, l = "127.0.0.1\t" ++ d := by
    intro l hl
    rw [List.mem_map] at hl
    obtain ⟨d, hd, rfl⟩ := hl
    exact ⟨d, hd, rfl⟩
  have hlines : splitLines (buildHostsContent bf ds af) =
      bf ++ (marker :: (ds.map (fun d => "127.0.0.1\t" ++ d) ++ [endMarker]))
        ++ af := by
    rw [buildHostsContent_ne_nil hds]
    apply splitLines_joinLines
    · intro l hl
      rcases List.mem_append.mp hl with hl | hl
      · rcases List.mem_append.mp hl with hl | hl
        · exact hbn l hl
        · rcases List.mem_cons.mp hl with rfl | hl
          · exact newline_not_mem_marker
          · rcases List.mem_append.mp hl with hl | hl
            · obtain ⟨d, hd, rfl⟩ := hmem_es l hl
              exact (entry_char_free (hgt d hd).2).2
            · rw [List.mem_singleton.mp hl]
              exact newline_not_mem_endMarker
      · exact han l hl
    · simp
  have hshape1 : bf ++ (marker :: (ds.map (fun d => "127.0.0.1\t" ++ d)
      ++ [endMarker])) ++ af =
      bf ++ marker :: (ds.map (fun d => "127.0.0.1\t" ++ d) ++ [endMarker]
        ++ af) := by
    simp
  have hfm : findIndex (fun l => strContains l marker)
      (splitLines (buildHostsContent bf ds af)) = some bf.length := by
    rw [hlines, hshape1]
    exact findIndex_append_of_forall hbm marker _ marker_contains_self
  have hshape2 : bf ++ (marker :: (ds.map (fun d => "127.0.0.1\t" ++ d)
      ++ [endMarker])) ++ af =
      (bf ++ marker :: ds.map (fun d => "127.0.0.1\t" ++ d)) ++
        endMarker :: af := by
    simp
  have hfe : findIndex (fun l => strContains l endMarker)
      (splitLines (buildHostsContent bf ds af)) =
      some (bf.length + (ds.length + 1)) := by
    rw [hlines, hshape2]
    have hpre : ∀ l ∈ bf ++ marker :: ds.map (fun d => "127.0.0.1\t" ++ d),
        strContains l endMarker = false := by
      intro l hl
      rcases List.mem_append.mp hl with hl | hl
      · exact hbe l hl
      · rcases List.mem_cons.mp hl with rfl | hl
        · exact marker_not_contains_end
        · obtain ⟨d, hd, rfl⟩ := hmem_es l hl
          exact (entry_marker_free (hgt d hd).2).2
    have := findIndex_append_of_forall hpre endMarker af endMarker_contains_self
    rw [this]
    simp [Nat.add_comm]
  rw [parseHosts_of_found hfm hfe, hlines]
  congr 1
  · rw [hshape1, List.take_left]
  · have hshape3 : bf ++ (marker :: (ds.map (fun d => "127.0.0.1\t" ++ d)
        ++ [endMarker])) ++ af =
        (bf ++ [marker]) ++ (ds.map (fun d => "127.0.0.1\t" ++ d) ++
          endMarker :: af) := by
      simp
    have hdrop : (bf ++ (marker :: (ds.map (fun d => "127.0.0.1\t" ++ d)
        ++ [endMarker])) ++ af).drop (bf.length + 1) =
        ds.map (fun d => "127.0.0.1\t" ++ d) ++ endMarker :: af := by
      rw [hshape3]
      have : bf.length + 1 = (bf ++ [marker]).length := by simp
      rw [this, List.drop_left]
    rw [hdrop]
    have hsub : bf.length + (ds.length + 1) - (bf.length + 1) = ds.length := by
      omega
    rw [hsub]
    have htake : (ds.map (fun d => "127.0.0.1\t" ++ d) ++ endMarker :: af).take
        (ds.length) = ds.map (fun d => "127.0.0.1\t" ++ d) := by
      have : ds.length = (ds.map (fun d => "127.0.0.1\t" ++ d)).length := by
        simp
      rw [this, List.take_left]
    rw [htake]
    rw [List.filter_eq_self]
    intro l hl
    obtain ⟨d, hd, rfl⟩ := hmem_es l hl
    exact isEntryLine_entry (hgt d hd).1 (hgt d hd).2
  · have hshape4 : bf ++ (marker :: (ds.map (fun d => "127.0.0.1\t" ++ d)
        ++ [endMarker])) ++ af =
        ((bf ++ marker :: ds.map (fun d => "127.0.0.1\t" ++ d)) ++
          [endMarker]) ++ af := by
      simp
    have : bf.length + (ds.length + 1) + 1 =
        ((bf ++ marker :: ds.map (fun d => "127.0.0.1\t" ++ d)) ++
          [endMarker]).length := by
      simp
      omega
    rw [hshape4, this, List.drop_left]

/-! ### Sorting lemmas -/

theorem sortStr_perm (l : List String) : List.Perm (sortStr l) l :=
  List.perm_insertionSort _ l

theorem sortStr_sorted (l : List String) :
    List.Sorted (fun a b : String => a ≤ b) (sortStr l) :=
  List.sorted_insertionSort _ l

theorem sortStr_eq_of_perm {l₁ l₂ : List String} (h : List.Perm l₁ l₂) :
    sortStr l₁ = sortStr l₂ :=
  List.eq_of_perm_of_sorted
    ((sortStr_perm l₁).trans (h.trans (sortStr_perm l₂).symm))
    (sortStr_sorted l₁) (sortStr_sorted l₂)

theorem sortStr_ne_nil {l : List String} (h : l ≠ []) : sortStr l ≠ [] := by
  intro hnil
  exact h (List.Perm.eq_nil ((sortStr_perm l).symm.trans (hnil ▸ List.Perm.refl _)))

theorem mem_sortStr {l : List String} {a : String} :
    a ∈ sortStr l ↔ a ∈ l :=
  (sortStr_perm l).mem_iff

theorem cleanLine_props {l : String} (h : cleanLine l = true) :
    '\n' ∉ l.toList ∧ strContains l marker = false ∧
      strContains l endMarker = false := by
  unfold cleanLine at h
  rw [Bool.and_eq_true, Bool.and_eq_true] at h
  obtain ⟨⟨h1, h2⟩, h3⟩ := h
  exact ⟨of_decide_eq_true h1, Bool.not_eq_true' .. ▸ h2,
    Bool.not_eq_true' .. ▸ h3⟩

theorem strList_contains_iff {l : List String} {a : String} :
    l.contains a = true ↔ a ∈ l := by
  rw [List.contains_iff_exists_mem_beq]
  constructor
  · rintro ⟨b, hb, hab⟩
    rw [beq_iff_eq] at hab
    exact hab ▸ hb
  · intro ha
    exact ⟨a, ha, by simp⟩

theorem extractDomains_map_entry {ds : List String}
    (h : ∀ d ∈ ds, ∀ c ∈ d.toList, c.isWhitespace = false)
    (hne : ∀ d ∈ ds, d.toList ≠ []) :
    extractDomains (ds.map (fun d => "127.0.0.1\t" ++ d)) = ds := by
  induction ds with
  | nil => rfl
  | cons d ds ih =>
    have hd1 : ∀ c ∈ d.toList, c.isWhitespace = false :=
      h d (List.mem_cons_self _ _)
    have hd2 : d.toList ≠ [] := hne d (List.mem_cons_self _ _)
    have hdne : ¬d = "" := fun hd => hd2 (by rw [hd]; rfl)
    unfold extractDomains at ih ⊢
    rw [List.map_cons, List.filterMap_cons, splitWS_entry hd1]
    dsimp only
    rw [if_neg hdne,
      ih (fun x hx => h x (List.mem_cons_of_mem _ hx))
        (fun x hx => hne x (List.mem_cons_of_mem _ hx))]

/-! ### Concrete hosts-file contents used as test inputs -/

/-- A hosts file with a start marker but no end marker: the line after the
marker must not be lost, per the spec. -/
def malformedContent : String :=
  "127.0.0.1 localhost\n# CHost managed domains\n127.0.0.1\timportant.local"

/-- A hosts file containing two marker blocks. -/
def doubleBlockContent : String :=
  "# CHost managed domains\n# End CHost managed domains\n# CHost managed domains\n# End CHost managed domains"

/-- A hosts file in which an end-marker line precedes the start-marker
line. -/
def invertedMarkersContent : String :=
  "# End CHost managed domains\n# CHost managed domains"

/-! ### Claim theorems -/

/-- Claim C1 (code_bug evidence): on a hosts file whose start marker has no
matching end marker, `addDomain` writes a rebuilt file in which the content
that followed the start marker (here the line `127.0.0.1\timportant.local`)
is no longer present, even though it was present before — the remainder of
the file is silently discarded, contradicting the spec. -/
theorem C1_truncated_block_tail_lost :
    (addDomain true malformedContent "app.local").map
      (fun r => (strContains r.1 "important.local", r.2)) =
      Except.ok (false, true) ∧
    strContains malformedContent "important.local" = true := by
  exact ⟨by rfl, by rfl⟩

/-- Claim C4, counterexample: the line `"xx # CHost managed domains yy"` is
not equal to the marker string, yet `parseHosts` treats it as the start
marker (its `beforeManaged` is empty instead of holding both lines), so
marker recognition is not exact whole-line equality. -/
theorem C4_counterexample :
    (parseHosts "xx # CHost managed domains yy\nkeep me").beforeManaged = []
      ∧ "xx # CHost managed domains yy" ≠ marker := by
  exact ⟨by rfl, by decide⟩

/-- Claim C4, amended: a line is treated as a marker line iff it contains
the marker string as a contiguous substring, and the parser keeps as
`beforeManaged` exactly the longest prefix of lines containing no such
line. -/
theorem C4_amended_substring_match :
    (∀ l : String, strContains l marker = true ↔ marker.toList <:+: l.toList)
      ∧
    (∀ l : String,
      strContains l endMarker = true ↔ endMarker.toList <:+: l.toList) ∧
    (∀ content : String, (parseHosts content).beforeManaged =
      (splitLines content).takeWhile (fun l => !(strContains l marker))) := by
  refine ⟨fun l => strContains_iff_substring, fun l => strContains_iff_substring,
    fun content => ?_⟩
  cases hs : findIndex (fun l => strContains l marker) (splitLines content) with
  | none =>
    rw [parseHosts_of_marker_none hs, takeWhile_eq_self_of_findIndex_none hs]
  | some s =>
    cases he : findIndex (fun l => strContains l endMarker)
        (splitLines content) with
    | none =>
      rw [parseHosts_of_end_none hs he]
      exact findIndex_take_eq_takeWhile hs
    | some e =>
      rw [parseHosts_of_found hs he]
      exact findIndex_take_eq_takeWhile hs

/-- Claim C5, counterexample: a port-in-use error (`EADDRINUSE`) is handled
by the listener error handlers exactly like a generic I/O error
(`ENOENT`) — a non-fatal generic log — so bind failures are not surfaced as
a distinguishable, fatal bind error for the port-in-use cause. -/
theorem C5_counterexample :
    httpListenerOnError "EADDRINUSE" = httpListenerOnError "ENOENT" ∧
    httpListenerOnError "EADDRINUSE" =
      ListenerAction.logOnly "HTTP server error:" ∧
    httpsListenerOnError "EADDRINUSE" =
      ListenerAction.logOnly "HTTPS server error:" :=
  ⟨rfl, rfl, rfl⟩

/-- Claim C5, amended: only `EACCES` (insufficient privilege) is
distinguished — it logs a privilege-specific message and is fatal
(`process.exit(1)`); every other error code, port-in-use included, gets the
same generic non-fatal log, and no handler rebinds to a different port. -/
theorem C5_amended_eacces_only :
    httpListenerOnError "EACCES" = ListenerAction.exitFatal
      "Permission denied to bind to port 80. Please run with sudo." ∧
    httpsListenerOnError "EACCES" = ListenerAction.exitFatal
      "Permission denied to bind to port 443. Please run with sudo." ∧
    ∀ code : String, code ≠ "EACCES" →
      httpListenerOnError code = ListenerAction.logOnly "HTTP server error:" ∧
      httpsListenerOnError code =
        ListenerAction.logOnly "HTTPS server error:" := by
  refine ⟨rfl, rfl, fun code hc => ⟨?_, ?_⟩⟩
  · unfold httpListenerOnError
    rw [if_neg hc]
  · unfold httpsListenerOnError
    rw [if_neg hc]

/-- Witness for C5's amended theorem at the concrete code `EADDRINUSE`. -/
theorem C5_amended_eacces_only_witness :
    ("EADDRINUSE" : String) ≠ "EACCES" ∧
    httpListenerOnError "EADDRINUSE" =
      ListenerAction.logOnly "HTTP server error:" :=
  ⟨by decide, (C5_amended_eacces_only.2.2 "EADDRINUSE" (by decide)).1⟩

/-- Claim C6: every certificate produced by `getCertificate` uses a freshly
generated RSA key pair with a 2048-bit (hence ≥ 2048-bit) modulus, is
self-signed (issuer = subject, signed with its own key), has common name
equal to the hostname, validity from the generation instant to one year
later, subject-alternative-names exactly {hostname, "localhost"} (as DNS
entries), key usage including digital signature and key encipherment, and
extended key usage including server and client authentication. -/
theorem C6_certificate_properties :
    ∀ (domain : String) (now : SimpleDate),
      (getCertificate domain now).keyPair.modulusBits ≥ 2048 ∧
      (getCertificate domain now).keyPair = rsaGenerateKeyPair 2048 ∧
      (getCertificate domain now).signingKey =
        (getCertificate domain now).keyPair ∧
      (getCertificate domain now).issuer =
        (getCertificate domain now).subject ∧
      (getCertificate domain now).subject.commonName = domain ∧
      (getCertificate domain now).notBefore = now ∧
      (getCertificate domain now).notAfter = ⟨now.year + 1, now.sub⟩ ∧
      (getCertificate domain now).keyUsage.digitalSignature = true ∧
      (getCertificate domain now).keyUsage.keyEncipherment = true ∧
      (getCertificate domain now).extKeyUsage.serverAuth = true ∧
      (getCertificate domain now).extKeyUsage.clientAuth = true ∧
      (getCertificate domain now).subjectAltNames =
        [⟨2, domain⟩, ⟨2, "localhost"⟩] :=
  fun _ _ =>
    ⟨Nat.le_refl _, rfl, rfl, rfl, rfl, rfl, rfl, rfl, rfl, rfl, rfl, rfl⟩

/-- Claim C7: with no write permission on the hosts file, each of the four
reconciliation operations fails with the permission error; the error is
produced before the file content is consulted (the result is the same
`Except.error` for every content), and no new content is produced, so the
hosts file is unchanged. -/
theorem C7_permission_error_first :
    ∀ (content domain : String) (ds : List String),
      addDomain false content domain = Except.error permissionErrorMsg ∧
      removeDomain false content domain = Except.error permissionErrorMsg ∧
      syncDomains false content ds = Except.error permissionErrorMsg ∧
      removeAllDomains false content = Except.error permissionErrorMsg :=
  fun _ _ _ => ⟨rfl, rfl, rfl, rfl⟩

/-- Claim C9, counterexample: on a hosts file containing two marker blocks,
`removeAllDomains` leaves a file that still contains both the start marker
and the end marker, refuting the unconditional claim that `clearAll()`
leaves a file containing neither marker. -/
theorem C9_counterexample :
    (removeAllDomains true doubleBlockContent).map
      (fun r => (strContains r.1 marker, strContains r.1 endMarker)) =
      Except.ok (true, true) := by rfl

/-- Claim C10: `ProxyServer.start` returns without touching the listener
state when already running, and returns in the not-started state without
binding any listener when the domain registry is empty. -/
theorem C10_start_guards :
    ∀ (st : ProxyState) (domains : List (String × DomainConfig))
      (settings : Settings),
      ((st.httpServer = true ∨ st.httpsServer = true) →
        ProxyServer.start st domains settings =
          (st, StartResult.alreadyRunning)) ∧
      (st = ⟨false, false⟩ → domains = [] →
        ProxyServer.start st domains settings =
          (⟨false, false⟩, StartResult.noDomains)) := by
  intro st domains settings
  constructor
  · intro h
    unfold ProxyServer.start
    rw [if_pos]
    rcases h with h | h <;> simp [h]
  · rintro rfl rfl
    rfl

/-- Witness for C10 at concrete inputs: an already-running state, and an
empty registry from the stopped state. -/
theorem C10_start_guards_witness :
    ProxyServer.start ⟨true, false⟩ [("app.local", ⟨3000, false, true⟩)]
        ⟨80, 443⟩ = (⟨true, false⟩, StartResult.alreadyRunning) ∧
    ProxyServer.start ⟨false, false⟩ [] ⟨80, 443⟩ =
      (⟨false, false⟩, StartResult.noDomains) :=
  ⟨(C10_start_guards ⟨true, false⟩ _ _).1 (Or.inl rfl),
   (C10_start_guards ⟨false, false⟩ [] _).2 rfl rfl⟩

/-- Claim C3: for valid hostname lists and marker-free, newline-free
before/after line sequences, parsing the rebuilt file recovers exactly the
(sorted) hostname list — hence exactly the hostname set, since sorting is a
permutation — and the rebuilt output is invariant under permuting the input
list (sorted output is insertion-order independent). -/
theorem C3_roundtrip_order_independent :
    ∀ (s bf af : List String),
      (∀ d ∈ s, validHostname d = true) →
      (∀ l ∈ bf ++ af, cleanLine l = true) →
      extractDomains (parseHosts (rebuild bf s af)).managedEntries = sortStr s
        ∧
      List.Perm (sortStr s) s ∧
      (∀ s' : List String, List.Perm s' s →
        rebuild bf s' af = rebuild bf s af) := by
  intro s bf af hv hc
  have hbf : ∀ l ∈ bf, cleanLine l = true :=
    fun l hl => hc l (List.mem_append_left _ hl)
  have haf : ∀ l ∈ af, cleanLine l = true :=
    fun l hl => hc l (List.mem_append_right _ hl)
  refine ⟨?_, sortStr_perm s, fun s' hp => by
    unfold rebuild
    rw [sortStr_eq_of_perm hp]⟩
  by_cases hs : s = []
  · subst hs
    unfold rebuild
    rw [show sortStr ([] : List String) = [] from rfl, buildHostsContent_nil]
    by_cases hba : bf ++ af = []
    · rw [hba]
      rfl
    · have hfm : findIndex (fun l => strContains l marker)
          (splitLines (joinLines (bf ++ af))) = none := by
        rw [splitLines_joinLines
            (fun l hl => (cleanLine_props (hc l hl)).1) hba,
          findIndex_eq_none_iff]
        intro l hl
        exact (cleanLine_props (hc l hl)).2.1
      rw [parseHosts_of_marker_none hfm]
      rfl
  · unfold rebuild
    have hgt : ∀ d ∈ sortStr s,
        d.toList ≠ [] ∧ ∀ c ∈ d.toList, c.isWhitespace = false :=
      fun d hd => validHostname_props (hv d (mem_sortStr.mp hd))
    rw [parseHosts_build
      (fun l hl => (cleanLine_props (hbf l hl)).2.1)
      (fun l hl => (cleanLine_props (hbf l hl)).2.2)
      (fun l hl => (cleanLine_props (hbf l hl)).1)
      (fun l hl => (cleanLine_props (haf l hl)).1)
      (sortStr_ne_nil hs) hgt]
    exact extractDomains_map_entry (fun d hd => (hgt d hd).2)
      (fun d hd => (hgt d hd).1)

/-- Witness for C3 at a concrete unsorted input with concrete surrounding
lines. -/
theorem C3_roundtrip_order_independent_witness :
    (∀ d ∈ ["b.local", "a.local"], validHostname d = true) ∧
    (∀ l ∈ ["127.0.0.1 localhost"] ++ ["# tail comment"],
      cleanLine l = true) ∧
    extractDomains (parseHosts (rebuild ["127.0.0.1 localhost"]
        ["b.local", "a.local"] ["# tail comment"])).managedEntries =
      sortStr ["b.local", "a.local"] :=
  ⟨by decide, by decide,
   (C3_roundtrip_order_independent ["b.local", "a.local"]
     ["127.0.0.1 localhost"] ["# tail comment"] (by decide) (by decide)).1⟩

theorem take_mid_drop {ls : List String} {s e : Nat} (h : s ≤ e + 1) :
    ls = ls.take s ++ ((ls.drop s).take (e + 1 - s)) ++ ls.drop (e + 1) := by
  conv_lhs => rw [← List.take_append_drop s ls]
  rw [List.append_assoc]
  congr 1
  conv_lhs => rw [← List.take_append_drop (e + 1 - s) (ls.drop s)]
  congr 1
  rw [List.drop_drop]
  congr 1
  omega

/-- Claim C2: as long as the hosts file has a well-formed marker pair (a
start-marker line at index `s` and the first end-marker line at `e > s`),
every reconciliation operation produces a file whose line sequence still
starts with the lines strictly before the start marker and still ends with
the lines strictly after the end marker, both unchanged — only the middle
region differs. -/
theorem C2_frame_preserved :
    ∀ (content domain : String) (ds : List String) (s e : Nat),
      findIndex (fun l => strContains l marker) (splitLines content) = some s
        →
      findIndex (fun l => strContains l endMarker) (splitLines content) =
        some e →
      s < e →
      (∀ nc w, addDomain true content domain = Except.ok (nc, w) →
        ∃ mid, splitLines nc = (splitLines content).take s ++ mid ++
          (splitLines content).drop (e + 1)) ∧
      (∀ nc w, removeDomain true content domain = Except.ok (nc, w) →
        ∃ mid, splitLines nc = (splitLines content).take s ++ mid ++
          (splitLines content).drop (e + 1)) ∧
      (∀ nc w, syncDomains true content ds = Except.ok (nc, w) →
        ∃ mid, splitLines nc = (splitLines content).take s ++ mid ++
          (splitLines content).drop (e + 1)) ∧
      (∀ nc w, removeAllDomains true content = Except.ok (nc, w) →
        ∃ mid, splitLines nc = (splitLines content).take s ++ mid ++
          (splitLines content).drop (e + 1)) := by
  intro content domain ds s e hs he hlt
  have hparse := parseHosts_of_found hs he
  have hbn : ∀ l ∈ (splitLines content).take s, '\n' ∉ l.toList :=
    fun l hl => mem_splitLines_no_newline content l (List.take_subset _ _ hl)
  have han : ∀ l ∈ (splitLines content).drop (e + 1), '\n' ∉ l.toList :=
    fun l hl => mem_splitLines_no_newline content l (List.drop_subset _ _ hl)
  have hbuild : ∀ ds' : List String, ∃ mid,
      splitLines (buildHostsContent ((splitLines content).take s) ds'
        ((splitLines content).drop (e + 1))) =
      (splitLines content).take s ++ mid ++
        (splitLines content).drop (e + 1) := by
    intro ds'
    unfold buildHostsContent
    exact splitLines_joinLines_mid _ _ _ hbn han
  have hnoop : ∃ mid, splitLines content =
      (splitLines content).take s ++ mid ++
        (splitLines content).drop (e + 1) :=
    ⟨((splitLines content).drop s).take (e + 1 - s), take_mid_drop (by omega)⟩
  refine ⟨?_, ?_, ?_, ?_⟩
  · intro nc w hok
    unfold addDomain at hok
    rw [if_neg (by decide), hparse] at hok
    dsimp only at hok
    by_cases hmem : (extractDomains ((((splitLines content).drop (s + 1)).take
        (e - (s + 1))).filter isEntryLine)).contains domain = true
    · rw [if_pos hmem] at hok
      simp only [Except.ok.injEq, Prod.mk.injEq] at hok
      obtain ⟨rfl, -⟩ := hok
      exact hnoop
    · rw [if_neg hmem] at hok
      simp only [Except.ok.injEq, Prod.mk.injEq] at hok
      obtain ⟨rfl, -⟩ := hok
      exact hbuild _
  · intro nc w hok
    unfold removeDomain at hok
    rw [if_neg (by decide), hparse] at hok
    dsimp only at hok
    by_cases hlen : ((extractDomains ((((splitLines content).drop
        (s + 1)).take (e - (s + 1))).filter isEntryLine)).filter
        (fun d => !(d == domain))).length ≠
        (extractDomains ((((splitLines content).drop (s + 1)).take
          (e - (s + 1))).filter isEntryLine)).length
    · rw [if_pos hlen] at hok
      simp only [Except.ok.injEq, Prod.mk.injEq] at hok
      obtain ⟨rfl, -⟩ := hok
      exact hbuild _
    · rw [if_neg hlen] at hok
      simp only [Except.ok.injEq, Prod.mk.injEq] at hok
      obtain ⟨rfl, -⟩ := hok
      exact hnoop
  · intro nc w hok
    unfold syncDomains at hok
    rw [if_neg (by decide), hparse] at hok
    dsimp only at hok
    simp only [Except.ok.injEq, Prod.mk.injEq] at hok
    obtain ⟨rfl, -⟩ := hok
    exact hbuild _
  · intro nc w hok
    unfold removeAllDomains at hok
    rw [if_neg (by decide), hparse] at hok
    dsimp only at hok
    simp only [Except.ok.injEq, Prod.mk.injEq] at hok
    obtain ⟨rfl, -⟩ := hok
    exact hbuild _

/-- Witness for C2 on a concrete well-formed hosts file, exercising the
`addDomain` conjunct. -/
theorem C2_frame_preserved_witness :
    findIndex (fun l => strContains l marker)
      (splitLines "keep me\n# CHost managed domains\n127.0.0.1\tapp.local\n# End CHost managed domains\nkeep me too") = some 1 ∧
    findIndex (fun l => strContains l endMarker)
      (splitLines "keep me\n# CHost managed domains\n127.0.0.1\tapp.local\n# End CHost managed domains\nkeep me too") = some 3 ∧
    (∀ nc w, addDomain true
        "keep me\n# CHost managed domains\n127.0.0.1\tapp.local\n# End CHost managed domains\nkeep me too"
        "x.local" = Except.ok (nc, w) →
      ∃ mid, splitLines nc =
        (splitLines "keep me\n# CHost managed domains\n127.0.0.1\tapp.local\n# End CHost managed domains\nkeep me too").take 1
        ++ mid ++
        (splitLines "keep me\n# CHost managed domains\n127.0.0.1\tapp.local\n# End CHost managed domains\nkeep me too").drop 4) :=
  ⟨by rfl, by rfl,
   (C2_frame_preserved
     "keep me\n# CHost managed domains\n127.0.0.1\tapp.local\n# End CHost managed domains\nkeep me too"
     "x.local" [] 1 3 (by rfl) (by rfl) (by decide)).1⟩

/-- Running `addDomain` on a file just built from well-behaved parts, with a
hostname already in the built list, changes nothing and performs no
write. -/
theorem addDomain_second {bf af ds : List String} {hn : String}
    (hbm : ∀ l ∈ bf, strContains l marker = false)
    (hbe : ∀ l ∈ bf, strContains l endMarker = false)
    (hbn : ∀ l ∈ bf, '\n' ∉ l.toList)
    (han : ∀ l ∈ af, '\n' ∉ l.toList)
    (hds : ds ≠ [])
    (hgt : ∀ d ∈ ds, d.toList ≠ [] ∧ ∀ c ∈ d.toList, c.isWhitespace = false)
    (hmem : hn ∈ ds) :
    addDomain true (buildHostsContent bf ds af) hn =
      Except.ok (buildHostsContent bf ds af, false) := by
  unfold addDomain
  rw [if_neg (by decide), parseHosts_build hbm hbe hbn han hds hgt]
  dsimp only
  rw [extractDomains_map_entry (fun d hd => (hgt d hd).2)
    (fun d hd => (hgt d hd).1)]
  rw [if_pos (strList_contains_iff.mpr hmem)]

/-- Claim C8, amended: provided the hostname is valid and the hosts file is
well laid out — its first end-marker line (if any) is strictly preceded by
its first start-marker line — `addDomain` is idempotent: after one
application, a second application returns the same content and performs no
write. -/
theorem C8_amended_idempotent :
    ∀ (content hostname : String), validHostname hostname = true →
      goodLayout content = true →
      ∀ nc w, addDomain true content hostname = Except.ok (nc, w) →
        addDomain true nc hostname = Except.ok (nc, false) := by
  intro content hn hv hg nc w hok
  obtain ⟨hv1, hv2⟩ := validHostname_props hv
  unfold addDomain at hok
  rw [if_neg (by decide)] at hok
  cases hs : findIndex (fun l => strContains l marker) (splitLines content)
    with
  | none =>
    cases he : findIndex (fun l => strContains l endMarker)
        (splitLines content) with
    | some e =>
      simp only [goodLayout, he, hs] at hg
      exact absurd hg (by decide)
    | none =>
      rw [parseHosts_of_marker_none hs] at hok
      dsimp only at hok
      rw [show (extractDomains ([] : List String)).contains hn = false from
        rfl] at hok
      rw [if_neg (by simp)] at hok
      simp only [Except.ok.injEq, Prod.mk.injEq] at hok
      obtain ⟨rfl, -⟩ := hok
      exact addDomain_second
        (findIndex_eq_none_iff.mp hs)
        (findIndex_eq_none_iff.mp he)
        (fun l hl => mem_splitLines_no_newline content l hl)
        (fun l hl => absurd hl (List.not_mem_nil l))
        (sortStr_ne_nil (by simp))
        (fun d hd => by
          rcases List.mem_append.mp (mem_sortStr.mp hd) with hd | hd
          · exact absurd hd (List.not_mem_nil d)
          · rw [List.mem_singleton] at hd
            exact hd ▸ ⟨hv1, hv2⟩)
        (mem_sortStr.mpr (List.mem_append_right _ (List.mem_singleton_self hn)))
  | some s =>
    cases he : findIndex (fun l => strContains l endMarker)
        (splitLines content) with
    | none =>
      rw [parseHosts_of_end_none hs he] at hok
      dsimp only at hok
      rw [show (extractDomains ([] : List String)).contains hn = false from
        rfl] at hok
      rw [if_neg (by simp)] at hok
      simp only [Except.ok.injEq, Prod.mk.injEq] at hok
      obtain ⟨rfl, -⟩ := hok
      exact addDomain_second
        (findIndex_take_false hs)
        (fun l hl => findIndex_eq_none_iff.mp he l (List.take_subset _ _ hl))
        (fun l hl =>
          mem_splitLines_no_newline content l (List.take_subset _ _ hl))
        (fun l hl => absurd hl (List.not_mem_nil l))
        (sortStr_ne_nil (by simp))
        (fun d hd => by
          rcases List.mem_append.mp (mem_sortStr.mp hd) with hd | hd
          · exact absurd hd (List.not_mem_nil d)
          · rw [List.mem_singleton] at hd
            exact hd ▸ ⟨hv1, hv2⟩)
        (mem_sortStr.mpr (List.mem_append_right _ (List.mem_singleton_self hn)))
    | some e =>
      simp only [goodLayout, he, hs] at hg
      have hlt : s < e := of_decide_eq_true hg
      rw [parseHosts_of_found hs he] at hok
      dsimp only at hok
      by_cases hmem : (extractDomains ((((splitLines content).drop
          (s + 1)).take (e - (s + 1))).filter isEntryLine)).contains hn = true
      · rw [if_pos hmem] at hok
        simp only [Except.ok.injEq, Prod.mk.injEq] at hok
        obtain ⟨rfl, -⟩ := hok
        unfold addDomain
        rw [if_neg (by decide), parseHosts_of_found hs he]
        dsimp only
        rw [if_pos hmem]
      · rw [if_neg hmem] at hok
        simp only [Except.ok.injEq, Prod.mk.injEq] at hok
        obtain ⟨rfl, -⟩ := hok
        apply addDomain_second
        · exact findIndex_take_false hs
        · intro l hl
          have hsub : (splitLines content).take s =
              ((splitLines content).take e).take s := by
            rw [List.take_take]
            congr 1
            omega
          rw [hsub] at hl
          exact findIndex_take_false he l (List.take_subset _ _ hl)
        · exact fun l hl =>
            mem_splitLines_no_newline content l (List.take_subset _ _ hl)
        · exact fun l hl =>
            mem_splitLines_no_newline content l (List.drop_subset _ _ hl)
        · exact sortStr_ne_nil (by simp)
        · intro d hd
          rcases List.mem_append.mp (mem_sortStr.mp hd) with hd | hd
          · exact extractDomains_token_props d hd
          · rw [List.mem_singleton] at hd
            exact hd ▸ ⟨hv1, hv2⟩
        · exact mem_sortStr.mpr
            (List.mem_append_right _ (List.mem_singleton_self hn))

/-- Claim C8, counterexample: on a hosts file whose end-marker line precedes
its start-marker line, the first `addDomain "a.local"` writes one file, and
a second `addDomain "a.local"` writes again (`w = true`) and produces a
different, longer file — so `addDomain` is not idempotent on every
hosts-file state. -/
theorem C8_counterexample :
    addDomain true invertedMarkersContent "a.local" = Except.ok
      ("# End CHost managed domains\n# CHost managed domains\n127.0.0.1\ta.local\n# End CHost managed domains\n# CHost managed domains",
        true) ∧
    (addDomain true
        "# End CHost managed domains\n# CHost managed domains\n127.0.0.1\ta.local\n# End CHost managed domains\n# CHost managed domains"
        "a.local").map (fun r =>
      ((r.1 ==
        "# End CHost managed domains\n# CHost managed domains\n127.0.0.1\ta.local\n# End CHost managed domains\n# CHost managed domains"),
        r.2)) = Except.ok (false, true) :=
  ⟨by rfl, by rfl⟩

/-- Witness for C8's amended theorem: starting from a plain hosts file, the
second `addDomain "app.local"` returns the once-rebuilt content unchanged
with no write. -/
theorem C8_amended_idempotent_witness :
    validHostname "app.local" = true ∧
    goodLayout "127.0.0.1 localhost" = true ∧
    addDomain true
      "127.0.0.1 localhost\n# CHost managed domains\n127.0.0.1\tapp.local\n# End CHost managed domains"
      "app.local" = Except.ok
        ("127.0.0.1 localhost\n# CHost managed domains\n127.0.0.1\tapp.local\n# End CHost managed domains",
          false) :=
  ⟨by rfl, by rfl,
   C8_amended_idempotent "127.0.0.1 localhost" "app.local" (by rfl) (by rfl)
     "127.0.0.1 localhost\n# CHost managed domains\n127.0.0.1\tapp.local\n# End CHost managed domains"
     true (by rfl)⟩

/-- Claim C9, amended: on a well-formed hosts file whose after-segment
contains no marker occurrences, `removeAllDomains` writes exactly the
preserved outside lines joined back together — it emits no marker lines of
its own — and the resulting file contains no line with either marker
string. -/
theorem C9_amended_no_markers_left :
    ∀ (content : String) (s e : Nat),
      findIndex (fun l => strContains l marker) (splitLines content) = some s
        →
      findIndex (fun l => strContains l endMarker) (splitLines content) =
        some e →
      s < e →
      (∀ l ∈ (splitLines content).drop (e + 1),
        strContains l marker = false ∧ strContains l endMarker = false) →
      ∀ nc w, removeAllDomains true content = Except.ok (nc, w) →
        nc = joinLines ((splitLines content).take s ++
          (splitLines content).drop (e + 1)) ∧ w = true ∧
        ∀ l ∈ splitLines nc,
          strContains l marker = false ∧ strContains l endMarker = false := by
  intro content s e hs he hlt hafter nc w hok
  unfold removeAllDomains at hok
  rw [if_neg (by decide), parseHosts_of_found hs he] at hok
  dsimp only at hok
  rw [buildHostsContent_nil] at hok
  simp only [Except.ok.injEq, Prod.mk.injEq] at hok
  obtain ⟨rfl, rfl⟩ := hok
  refine ⟨rfl, rfl, ?_⟩
  have hout : ∀ l ∈ (splitLines content).take s ++
      (splitLines content).drop (e + 1),
      strContains l marker = false ∧ strContains l endMarker = false := by
    intro l hl
    rcases List.mem_append.mp hl with hl | hl
    · refine ⟨findIndex_take_false hs l hl, ?_⟩
      have hsub : (splitLines content).take s =
          ((splitLines content).take e).take s := by
        rw [List.take_take]
        congr 1
        omega
      rw [hsub] at hl
      exact findIndex_take_false he l (List.take_subset _ _ hl)
    · exact hafter l hl
  by_cases hba : (splitLines content).take s ++
      (splitLines content).drop (e + 1) = []
  · rw [hba]
    intro l hl
    rw [show splitLines (joinLines []) = [""] from rfl] at hl
    rw [List.mem_singleton] at hl
    subst hl
    exact ⟨by decide, by decide⟩
  · rw [splitLines_joinLines (fun l hl => by
      rcases List.mem_append.mp hl with hl | hl
      · exact mem_splitLines_no_newline content l (List.take_subset _ _ hl)
      · exact mem_splitLines_no_newline content l (List.drop_subset _ _ hl))
      hba]
    exact hout

/-- Witness for C9's amended theorem on a concrete single-block file. -/
theorem C9_amended_no_markers_left_witness :
    findIndex (fun l => strContains l marker)
      (splitLines "keep\n# CHost managed domains\n127.0.0.1\ta.local\n# End CHost managed domains\ntail") = some 1 ∧
    ∀ nc w, removeAllDomains true
        "keep\n# CHost managed domains\n127.0.0.1\ta.local\n# End CHost managed domains\ntail" =
        Except.ok (nc, w) →
      nc = joinLines
        ((splitLines "keep\n# CHost managed domains\n127.0.0.1\ta.local\n# End CHost managed domains\ntail").take 1 ++
         (splitLines "keep\n# CHost managed domains\n127.0.0.1\ta.local\n# End CHost managed domains\ntail").drop 4) ∧
      w = true ∧
      ∀ l ∈ splitLines nc,
        strContains l marker = false ∧ strContains l endMarker = false :=
  ⟨by rfl,
   C9_amended_no_markers_left
     "keep\n# CHost managed domains\n127.0.0.1\ta.local\n# End CHost managed domains\ntail"
     1 3 (by rfl) (by rfl) (by decide) (by decide)⟩

end CHost
